import Mathlib

/-!
# Verification of the podcastfy audio/text pipeline

Shallow embedding of the parts of the `podcastfy` repository that the
specification's claims are about:

* `GeminiMultiTTS.merge_audio`, `chunk_text`, `split_turn_text`
  (`podcastfy/tts/providers/geminimulti.py`);
* `PodcastTemplate.clean_markup` and its helper passes
  (`podcastfy/templates/base.py`);
* `LongFormContentGenerator.__calculate_chunk_size`, `chunk_content` and
  `generate_long_form` (`podcastfy/content_generator.py`).

Python strings are modelled as `List Char`; the audio decoding/export
capability (pydub/ffmpeg) is kept abstract as a structure of functions.
-/

set_option autoImplicit false

namespace Podcastfy

/-! ## Audio assembler: `GeminiMultiTTS.merge_audio`

The pydub decode/append/export capability is abstract: `decode ch = none`
models `AudioSegment.from_file` raising, `segLen` models `len(segment)`,
`exportSeg = none` models `combined.export(...)` raising.  Byte strings are
`List Nat`. -/

/-- Abstract audio codec capability used by `merge_audio`. -/
structure AudioCodec (γ : Type) where
  decode : List Nat → Option γ
  segLen : γ → Nat
  append : γ → γ → γ
  exportSeg : γ → Option (List Nat)

/-- The per-chunk loop of `merge_audio` (geminimulti.py lines 152-190):
empty chunks are skipped, chunks whose decode raises are skipped, decoded
segments of zero length are skipped; the surviving segments are collected
in input order (`valid_chunks`). -/
def validSegments {γ : Type} (c : AudioCodec γ) (audio_chunks : List (List Nat)) :
    List γ :=
  audio_chunks.filterMap fun ch =>
    if ch.isEmpty then none
    else match c.decode ch with
      | none => none
      | some seg => if 0 < c.segLen seg then some seg else none

/-- The `try:` body of `merge_audio` (lines 148-208): raise
`"No valid audio chunks to merge"` when no chunk decoded, otherwise fold the
valid segments with `+` and export; a raising or empty export is an error. -/
def merge_audio_try {γ : Type} (c : AudioCodec γ) (audio_chunks : List (List Nat)) :
    Except String (List Nat) :=
  match validSegments c audio_chunks with
  | [] => .error ("No valid audio chunks to merge")
  | seg :: rest =>
    match c.exportSeg (rest.foldl c.append seg) with
    | none => .error ("export raised")
    | some result =>
      if result.isEmpty then .error ("Export produced empty output") else .ok result

/-- Embedding of `GeminiMultiTTS.merge_audio` (lines 132-215).  `[]` returns `b""`, a
singleton is returned unchanged, and the `except` handler at lines 210-215
turns *any* failure of the try body into `return audio_chunks[0]` (the list
is non-empty in that branch, so the final re-raise is unreachable). -/
def merge_audio {γ : Type} (c : AudioCodec γ) (audio_chunks : List (List Nat)) :
    Except String (List Nat) :=
  match audio_chunks with
  | [] => .ok []
  | [single] => .ok single
  | first :: rest =>
    match merge_audio_try c (first :: rest) with
    | .ok r => .ok r
    | .error _ => .ok first

/-- A codec on which every decode fails. -/
def failCodec : AudioCodec Unit :=
  { decode := fun _ => none
    segLen := fun _ => 0
    append := fun _ _ => ()
    exportSeg := fun _ => none }

/-- A codec that decodes every non-empty byte string to itself and exports
by identity (all operations succeed). -/
def idCodec : AudioCodec (List Nat) :=
  { decode := fun ch => some ch
    segLen := fun seg => seg.length
    append := fun a b => a ++ b
    exportSeg := fun seg => some seg }

/-- A codec that decodes only the byte string `[7]` and whose export always
raises. -/
def exportFailCodec : AudioCodec (List Nat) :=
  { decode := fun ch => if ch = [7] then some ch else none
    segLen := fun seg => seg.length
    append := fun a b => a ++ b
    exportSeg := fun _ => none }

end Podcastfy

namespace Podcastfy

/-- C1, counterexample: on the two-element list `[[0], [1]]` none of whose
elements decodes (every decode fails), `merge_audio` does *not* raise the
"no valid audio" error: the internal `RuntimeError` is swallowed by the
function's own `except` handler and the first raw buffer is returned. -/
theorem merge_audio_allfail_returns_first :
    merge_audio failCodec [[0], [1]] = .ok [0] ∧
      ∀ e : String, merge_audio failCodec [[0], [1]] ≠ .error e := by
  refine ⟨rfl, ?_⟩
  intro e h
  simp [merge_audio, merge_audio_try, validSegments, failCodec] at h

/-- C1, amended: for a list of at least two audio buffers, if no element
decodes as valid audio then `merge_audio` returns the *first input buffer*
(the internal "no valid audio" error is raised but caught by the fallback
handler); and if at least one element decodes and the export of the
in-order concatenation succeeds with non-empty output, the failing elements
are skipped and that export is returned. -/
theorem merge_audio_amended {γ : Type} (c : AudioCodec γ) (a b : List Nat)
    (rest : List (List Nat)) :
    (validSegments c (a :: b :: rest) = [] →
      merge_audio c (a :: b :: rest) = .ok a) ∧
    (∀ (s : γ) (ss : List γ) (out : List Nat),
      validSegments c (a :: b :: rest) = s :: ss →
      c.exportSeg (ss.foldl c.append s) = some out →
      out ≠ [] →
      merge_audio c (a :: b :: rest) = .ok out) := by
  constructor
  · intro h
    simp [merge_audio, merge_audio_try, h]
  · intro s ss out hv he hne
    simp [merge_audio, merge_audio_try, hv, he, List.isEmpty_iff, hne]

/-- C1, witness: both branches of `merge_audio_amended` at concrete inputs:
all-fail two-element list returns the first buffer; a fully-decoding list
returns the exported concatenation. -/
theorem merge_audio_amended_witness :
    merge_audio failCodec [[5], [6]] = .ok [5] ∧
      merge_audio idCodec [[1], [2]] = .ok [1, 2] :=
  ⟨(merge_audio_amended failCodec [5] [6] []).1 (by decide),
   (merge_audio_amended idCodec [1] [2] []).2 [1] [[2]] [1, 2]
     (by decide) (by decide) (by decide)⟩

/-- C7: when the export step fails after partial success, `merge_audio`
returns `audio_chunks[0]` — the first *raw input buffer* — even when that
buffer failed to decode, not the first successfully decoded fragment.  Here
`[9]` does not decode, `[7]` does, export raises, and the result is the
undecodable `[9]` instead of `[7]`. -/
theorem merge_audio_fallback_returns_first_raw :
    merge_audio exportFailCodec [[9], [7]] = .ok [9] ∧
      validSegments exportFailCodec [[9], [7]] = [[7]] :=
  ⟨rfl, by decide⟩

/-- C10: `merge_audio` returns the empty byte string on an empty list, and
returns a singleton's element unchanged for *every* codec — in particular
for codecs on which the element would fail to decode, so no decode or
validation is attempted on single-element input. -/
theorem merge_audio_empty_and_singleton {γ : Type} (c : AudioCodec γ) :
    merge_audio c [] = .ok [] ∧ ∀ ch : List Nat, merge_audio c [ch] = .ok ch :=
  ⟨rfl, fun _ => rfl⟩

end Podcastfy

namespace Podcastfy

/-! ## Content chunker: `LongFormContentGenerator`
(`podcastfy/content_generator.py`)

Python strings are `List Char`.  `joinSep sep` is Python's `sep.join`,
`splitDotSpace` is `str.split('. ')` (split on every non-overlapping
occurrence, left to right). -/

/-- Python's `sep.join(pieces)`. -/
def joinSep (sep : List Char) : List (List Char) → List Char
  | [] => []
  | [x] => x
  | x :: y :: rest => x ++ sep ++ joinSep sep (y :: rest)

/-- The separator `". "` used by `chunk_content`. -/
def sepDS : List Char := ['.', ' ']

/-- Python's `text.split('. ')`. -/
def splitDotSpace : List Char → List (List Char)
  | [] => [[]]
  | [c] => [[c]]
  | c :: d :: rest =>
    if c = '.' ∧ d = ' ' then [] :: splitDotSpace rest
    else match splitDotSpace (d :: rest) with
      | [] => [[c]]
      | p :: ps => (c :: p) :: ps

/-- Embedding of `LongFormContentGenerator.__calculate_chunk_size` (lines 85-95). -/
def calculate_chunk_size (min_chunk_size max_num_chunks input_length : Nat) : Nat :=
  if input_length ≤ min_chunk_size then input_length
  else if min_chunk_size ≤ input_length / max_num_chunks then
    input_length / max_num_chunks
  else input_length / (input_length / min_chunk_size)

/-- Python `'. '.join(current_chunk) + '.'` — how `chunk_content` renders a group
of sentences into one chunk. -/
def joinSentences (g : List (List Char)) : List Char := joinSep sepDS g ++ ['.']

/-- The sentence-accumulating loop of `chunk_content` (lines 97-115):
`cur` is `current_chunk`, `clen` is `current_length`. -/
def chunkLoop (csize : Nat) : List (List Char) → List (List Char) → Nat → List (List Char)
  | [], cur, _ => if cur.isEmpty then [] else [joinSentences cur]
  | s :: rest, cur, clen =>
    if csize < clen + s.length ∧ ¬cur.isEmpty then
      joinSentences cur :: chunkLoop csize rest [s] s.length
    else chunkLoop csize rest (cur ++ [s]) (clen + s.length)

/-- Embedding of `LongFormContentGenerator.chunk_content` (lines 97-115). -/
def chunk_content (input_content : List Char) (chunk_size : Nat) : List (List Char) :=
  chunkLoop chunk_size (splitDotSpace input_content) [] 0

theorem splitDotSpace_ne_nil : ∀ s : List Char, splitDotSpace s ≠ []
  | [] => by simp [splitDotSpace]
  | [c] => by simp [splitDotSpace]
  | c :: d :: rest => by
    by_cases h : c = '.' ∧ d = ' '
    · simp [splitDotSpace, h]
    · have := splitDotSpace_ne_nil (d :: rest)
      simp only [splitDotSpace, if_neg h]
      cases hs : splitDotSpace (d :: rest) with
      | nil => exact absurd hs this
      | cons p ps => simp

theorem joinSep_cons_of_ne_nil (sep a : List Char) {l : List (List Char)}
    (h : l ≠ []) : joinSep sep (a :: l) = a ++ sep ++ joinSep sep l := by
  cases l with
  | nil => exact absurd rfl h
  | cons y rest => rfl

/-- Joining with `'. '` is a left inverse of `split('. ')`. -/
theorem joinSep_splitDotSpace : ∀ s : List Char, joinSep sepDS (splitDotSpace s) = s
  | [] => rfl
  | [c] => rfl
  | c :: d :: rest => by
    by_cases h : c = '.' ∧ d = ' '
    · obtain ⟨hc, hd⟩ := h
      subst hc; subst hd
      have h1 : splitDotSpace ('.' :: ' ' :: rest) = [] :: splitDotSpace rest := by
        simp [splitDotSpace]
      rw [h1, joinSep_cons_of_ne_nil _ _ (splitDotSpace_ne_nil rest),
        joinSep_splitDotSpace rest]
      rfl
    · have hrec := joinSep_splitDotSpace (d :: rest)
      rw [splitDotSpace]
      simp only [if_neg h]
      cases hs : splitDotSpace (d :: rest) with
      | nil => exact absurd hs (splitDotSpace_ne_nil _)
      | cons p ps =>
        rw [hs] at hrec
        cases ps with
        | nil => simpa [joinSep] using hrec
        | cons q qs =>
          rw [joinSep_cons_of_ne_nil _ _ (by simp)] at hrec ⊢
          simpa [List.append_assoc] using hrec

/-- The sum of the sentence lengths never exceeds the source length. -/
theorem splitDotSpace_sum_le : ∀ s : List Char,
    ((splitDotSpace s).map List.length).sum ≤ s.length
  | [] => by simp [splitDotSpace]
  | [c] => by simp [splitDotSpace]
  | c :: d :: rest => by
    by_cases h : c = '.' ∧ d = ' '
    · have := splitDotSpace_sum_le rest
      simp only [splitDotSpace, if_pos h, List.map_cons, List.sum_cons,
        List.length_cons, List.length]
      omega
    · have := splitDotSpace_sum_le (d :: rest)
      simp only [splitDotSpace, if_neg h]
      cases hs : splitDotSpace (d :: rest) with
      | nil => exact absurd hs (splitDotSpace_ne_nil _)
      | cons p ps =>
        rw [hs] at this
        simp only [List.map_cons, List.sum_cons, List.length_cons] at this ⊢
        omega

end Podcastfy

namespace Podcastfy

theorem chunkLoop_ne_nil (csize : Nat) : ∀ (rest cur : List (List Char)) (clen : Nat),
    cur ≠ [] → chunkLoop csize rest cur clen ≠ []
  | [], cur, clen, h => by
    simp only [chunkLoop, List.isEmpty_iff, if_neg h]
    simp
  | s :: rest, cur, clen, h => by
    simp only [chunkLoop]
    split
    · simp
    · exact chunkLoop_ne_nil csize rest (cur ++ [s]) (clen + s.length) (by simp)

theorem chunkLoop_mem_ne_nil (csize : Nat) : ∀ (rest cur : List (List Char)) (clen : Nat)
    (c : List Char), c ∈ chunkLoop csize rest cur clen → c ≠ []
  | [], cur, clen, c, hc => by
    by_cases h : cur.isEmpty
    · simp [chunkLoop, h] at hc
    · simp only [chunkLoop, if_neg h, List.mem_singleton] at hc
      subst hc
      simp [joinSentences]
  | s :: rest, cur, clen, c, hc => by
    simp only [chunkLoop] at hc
    split at hc
    · rcases List.mem_cons.mp hc with h | h
      · subst h; simp [joinSentences]
      · exact chunkLoop_mem_ne_nil csize rest [s] s.length c h
    · exact chunkLoop_mem_ne_nil csize rest (cur ++ [s]) (clen + s.length) c hc

theorem dropLast_joinSentences (g : List (List Char)) :
    (joinSentences g).dropLast = joinSep sepDS g := by
  simp [joinSentences, List.dropLast_concat]

theorem joinSep_append_of_ne_nil (sep : List Char) :
    ∀ {xs ys : List (List Char)}, xs ≠ [] → ys ≠ [] →
      joinSep sep (xs ++ ys) = joinSep sep xs ++ sep ++ joinSep sep ys
  | [], _, hx, _ => absurd rfl hx
  | [x], ys, _, hy => by
    rw [List.singleton_append, joinSep_cons_of_ne_nil sep x hy]; rfl
  | x :: y :: t, ys, _, hy => by
    have h1 : (y :: t) ++ ys ≠ [] := by simp
    rw [List.cons_append, joinSep_cons_of_ne_nil sep x h1,
      joinSep_append_of_ne_nil sep (by simp) hy,
      joinSep_cons_of_ne_nil sep x (by simp)]
    simp [List.append_assoc]

theorem chunkLoop_rejoin (csize : Nat) : ∀ (rest cur : List (List Char)) (clen : Nat),
    cur ≠ [] →
    joinSep sepDS ((chunkLoop csize rest cur clen).map List.dropLast) =
      joinSep sepDS (cur ++ rest)
  | [], cur, clen, h => by
    simp only [chunkLoop, List.isEmpty_iff, if_neg h, List.map_cons, List.map_nil,
      List.append_nil]
    rw [dropLast_joinSentences]
    rfl
  | s :: rest, cur, clen, h => by
    simp only [chunkLoop]
    split
    · have hrec := chunkLoop_rejoin csize rest [s] s.length (by simp)
      have hne : (chunkLoop csize rest [s] s.length).map List.dropLast ≠ [] := by
        simp [chunkLoop_ne_nil csize rest [s] s.length (by simp)]
      rw [List.map_cons, joinSep_cons_of_ne_nil _ _ hne, dropLast_joinSentences,
        hrec, joinSep_append_of_ne_nil sepDS h (by simp), List.singleton_append]
    · have hrec := chunkLoop_rejoin csize rest (cur ++ [s]) (clen + s.length)
        (by simp)
      rw [hrec, List.append_assoc]
      rfl

theorem chunkLoop_single_of_fits (csize : Nat) :
    ∀ (rest cur : List (List Char)) (clen : Nat), cur ≠ [] →
      clen + ((rest.map List.length).sum) ≤ csize →
      chunkLoop csize rest cur clen = [joinSentences (cur ++ rest)]
  | [], cur, clen, h, _ => by
    simp only [chunkLoop, List.isEmpty_iff, if_neg h, List.append_nil]
  | s :: rest, cur, clen, h, hfit => by
    simp only [List.map_cons, List.sum_cons] at hfit
    have hcond : ¬(csize < clen + s.length ∧ ¬cur.isEmpty) := by
      intro ⟨h1, _⟩
      omega
    simp only [chunkLoop, if_neg hcond]
    rw [chunkLoop_single_of_fits csize rest (cur ++ [s]) (clen + s.length)
      (by simp) (by omega), List.append_assoc]
    rfl

/-- C4, counterexample: for the two-character input `"hi"` (length 2 ≤
`min_chunk_size` = 600), `chunk_content` returns one chunk `"hi."`, not a
chunk equal to the input. -/
theorem chunk_content_small_not_id :
    chunk_content ['h', 'i'] (calculate_chunk_size 600 7 2) = [['h', 'i', '.']] ∧
      chunk_content ['h', 'i'] (calculate_chunk_size 600 7 2) ≠ [['h', 'i']] := by
  constructor <;> decide

/-- C4, amended: for every source text with `len(text) <= min_chunk_size`,
the chunker returns exactly one chunk, equal to the input *with a trailing
`'.'` appended* (the loop re-joins the `'. '`-split sentences and always
appends `'.'`). -/
theorem chunk_content_small_single (minc maxc : Nat) (text : List Char)
    (h : text.length ≤ minc) :
    chunk_content text (calculate_chunk_size minc maxc text.length) =
      [text ++ ['.']] := by
  have hcs : calculate_chunk_size minc maxc text.length = text.length := by
    simp [calculate_chunk_size, h]
  rw [hcs]
  unfold chunk_content
  cases hs : splitDotSpace text with
  | nil => exact absurd hs (splitDotSpace_ne_nil text)
  | cons s0 ss =>
    have hstep : chunkLoop text.length (s0 :: ss) [] 0 =
        chunkLoop text.length ss [s0] s0.length := by
      simp [chunkLoop]
    rw [hstep, chunkLoop_single_of_fits text.length ss [s0] s0.length (by simp) ?_]
    · have hj : joinSep sepDS (s0 :: ss) = text := by
        rw [← hs]
        exact joinSep_splitDotSpace text
      simp [joinSentences, hj]
    · have := splitDotSpace_sum_le text
      rw [hs] at this
      simp only [List.map_cons, List.sum_cons] at this
      omega

/-- C4, witness: `chunk_content_small_single` applied to `"ok"` with the
default configuration 600/7. -/
theorem chunk_content_small_single_witness :
    chunk_content ['o', 'k'] (calculate_chunk_size 600 7 (['o', 'k'] : List Char).length) =
      [['o', 'k', '.']] :=
  chunk_content_small_single 600 7 ['o', 'k'] (by decide)

/-- C5, counterexample: re-joining the chunks of `"ab"` with `". "`
produces `"ab."`, not the original text — each chunk carries an appended
`'.'` that the plain re-join does not remove. -/
theorem chunk_content_plain_rejoin_fails :
    joinSep sepDS (chunk_content ['a', 'b'] (calculate_chunk_size 600 7 2)) ≠
      ['a', 'b'] := by
  decide

/-- C5, amended: for every chunk size and source text, dropping the single
trailing `'.'` appended to each chunk and re-joining with `". "`
reconstructs the original text exactly. -/
theorem chunk_content_rejoin (csize : Nat) (text : List Char) :
    joinSep sepDS ((chunk_content text csize).map List.dropLast) = text := by
  unfold chunk_content
  cases hs : splitDotSpace text with
  | nil => exact absurd hs (splitDotSpace_ne_nil text)
  | cons s0 ss =>
    have hstep : chunkLoop csize (s0 :: ss) [] 0 =
        chunkLoop csize ss [s0] s0.length := by
      simp [chunkLoop]
    rw [hstep, chunkLoop_rejoin csize ss [s0] s0.length (by simp)]
    have := joinSep_splitDotSpace text
    rw [hs] at this
    simpa using this

/-- C9, counterexample text: five sentences of nine `'a'`s. -/
def ex9 : List Char := joinSep sepDS (List.replicate 5 (List.replicate 9 'a'))

/-- C9, counterexample: with `min_chunk_size = 1 > 0` and
`max_chunk_count = 3 > 0`, the 53-character text `ex9` is split into 5
chunks, exceeding `max_chunk_count + 1 = 4`. -/
theorem chunk_count_exceeds_bound :
    (chunk_content ex9 (calculate_chunk_size 1 3 ex9.length)).length = 5 ∧
      3 + 1 < 5 := by
  constructor <;> decide

/-- C9, amended: for every configuration with positive `min_chunk_size` and
`max_chunk_count` and every source text, no produced chunk is the empty
string (every chunk ends with an appended `'.'`); the claimed bound
`max_chunk_count + 1` on the number of chunks does not hold. -/
theorem chunk_content_no_empty (minc maxc : Nat) (h1 : 0 < minc) (h2 : 0 < maxc)
    (text : List Char) :
    ∀ c ∈ chunk_content text (calculate_chunk_size minc maxc text.length),
      c ≠ [] :=
  fun c hc => chunkLoop_mem_ne_nil _ _ _ _ c hc

/-- C9, witness: `chunk_content_no_empty` applied to the one-character text
`"a"` with configuration 1/1, whose single chunk is `"a."`. -/
theorem chunk_content_no_empty_witness : (['a', '.'] : List Char) ≠ [] :=
  chunk_content_no_empty 1 1 (by decide) (by decide) ['a'] ['a', '.'] (by decide)

end Podcastfy

namespace Podcastfy

/-! ## Long-form generation: `LongFormContentGenerator.generate_long_form`
(content_generator.py lines 186-268)

The LLM invocation (`chain.invoke`) is abstracted as a function
`g : part_idx → total_parts → context → chunk → response`; the loop itself
is embedded exactly: `chat_context` starts empty, and for `i > 0` the
context is `conversation_parts[-1]`, the single previous raw response. -/

/-- The chunk loop of `generate_long_form`: returns `conversation_parts`,
the raw responses in chunk order. -/
def gllParts (g : Nat → Nat → List Char → List Char → List Char) (n : Nat) :
    Nat → List (List Char) → List Char → List (List Char)
  | _, [], _ => []
  | i, chunk :: rest, ctx => g i n ctx chunk :: gllParts g n (i + 1) rest (g i n ctx chunk)

/-- The sequence of `chat_context` values supplied to the generation calls,
one per chunk, in call order. -/
def gllContexts (g : Nat → Nat → List Char → List Char → List Char) (n : Nat) :
    Nat → List (List Char) → List Char → List (List Char)
  | _, [], _ => []
  | i, chunk :: rest, ctx => ctx :: gllContexts g n (i + 1) rest (g i n ctx chunk)

/-- Embedding of `LongFormContentGenerator.generate_long_form` (lines 186-268): chunk the
input with the calculated chunk size, run the generation loop starting from
the empty context, and join the responses with `"\n"`. -/
def generate_long_form (g : Nat → Nat → List Char → List Char → List Char)
    (min_chunk_size max_num_chunks : Nat) (input_content : List Char) : List Char :=
  let chunks := chunk_content input_content
    (calculate_chunk_size min_chunk_size max_num_chunks input_content.length)
  joinSep ['\n'] (gllParts g chunks.length 0 chunks [])

theorem gllParts_length (g : Nat → Nat → List Char → List Char → List Char)
    (n : Nat) : ∀ (i : Nat) (chunks : List (List Char)) (ctx : List Char),
      (gllParts g n i chunks ctx).length = chunks.length
  | _, [], _ => rfl
  | i, chunk :: rest, ctx => by
    simp [gllParts, gllParts_length g n (i + 1) rest (g i n ctx chunk)]

theorem gllParts_ne_nil (g : Nat → Nat → List Char → List Char → List Char)
    (n i : Nat) (c : List Char) (rest : List (List Char)) (ctx : List Char) :
    gllParts g n i (c :: rest) ctx ≠ [] := by
  simp [gllParts]

theorem gllContexts_eq (g : Nat → Nat → List Char → List Char → List Char)
    (n : Nat) : ∀ (i : Nat) (chunks : List (List Char)) (ctx : List Char),
      chunks ≠ [] →
      gllContexts g n i chunks ctx = ctx :: (gllParts g n i chunks ctx).dropLast
  | _, [], _, h => absurd rfl h
  | i, [chunk], ctx, _ => by simp [gllContexts, gllParts]
  | i, chunk :: chunk' :: rest, ctx, _ => by
    have hrec := gllContexts_eq g n (i + 1) (chunk' :: rest) (g i n ctx chunk)
      (by simp)
    simp only [gllContexts] at hrec ⊢
    rw [hrec]
    simp only [gllParts, List.dropLast_cons₂]

/-- C6: over the chunks of a run of `generate_long_form`, (i) there is
exactly one generation call per chunk (the responses list is in bijection
with the chunk list, in order); (ii) the context supplied to the call for
chunk 0 is the empty string and the context supplied for every later chunk
is exactly the single raw response of the previous chunk (the responses
list shifted by one), not the cumulative transcript; (iii) the returned
transcript is the `"\n"`-join of the raw responses in chunk order. -/
theorem generate_long_form_context_flow
    (g : Nat → Nat → List Char → List Char → List Char)
    (minc maxc : Nat) (input : List Char) :
    (gllParts g (chunk_content input (calculate_chunk_size minc maxc input.length)).length
        0 (chunk_content input (calculate_chunk_size minc maxc input.length)) []).length =
      (chunk_content input (calculate_chunk_size minc maxc input.length)).length ∧
    gllContexts g (chunk_content input (calculate_chunk_size minc maxc input.length)).length
        0 (chunk_content input (calculate_chunk_size minc maxc input.length)) [] =
      [] :: (gllParts g (chunk_content input (calculate_chunk_size minc maxc input.length)).length
        0 (chunk_content input (calculate_chunk_size minc maxc input.length)) []).dropLast ∧
    generate_long_form g minc maxc input =
      joinSep ['\n'] (gllParts g
        (chunk_content input (calculate_chunk_size minc maxc input.length)).length
        0 (chunk_content input (calculate_chunk_size minc maxc input.length)) []) := by
  refine ⟨gllParts_length g _ 0 _ [], ?_, rfl⟩
  apply gllContexts_eq
  unfold chunk_content
  cases hs : splitDotSpace input with
  | nil => exact absurd hs (splitDotSpace_ne_nil input)
  | cons s0 ss =>
    have hstep : chunkLoop (calculate_chunk_size minc maxc input.length) (s0 :: ss) [] 0 =
        chunkLoop (calculate_chunk_size minc maxc input.length) ss [s0] s0.length := by
      simp [chunkLoop]
    rw [hstep]
    exact chunkLoop_ne_nil _ ss [s0] s0.length (by simp)

end Podcastfy

namespace Podcastfy

/-! ## Synthesis chunker: `GeminiMultiTTS.chunk_text` and `split_turn_text`
(geminimulti.py lines 33-130)

The regular-expression operations are compiled by hand to scanners over
`List Char` with the exact Python `re` semantics (leftmost match, lazy
`.*?`, alternation order).  `pyWs` is Python's `\s` and `pyStrip` is
`str.strip()` (restricted to the ASCII whitespace characters). -/

/-- Python `\s` / `str.strip` whitespace (ASCII part). -/
def pyWs (c : Char) : Bool :=
  c = ' ' ∨ c = '\t' ∨ c = '\n' ∨ c = '\x0D' ∨ c = '\x0B' ∨ c = '\x0C'

/-- Python `str.strip()`. -/
def pyStrip (s : List Char) : List Char :=
  ((s.dropWhile pyWs).reverse.dropWhile pyWs).reverse

/-- Helper for `pySplitWs`: `acc` is the current word, reversed. -/
def pySplitWsAux : List Char → List Char → List (List Char)
  | [], acc => if acc.isEmpty then [] else [acc.reverse]
  | c :: rest, acc =>
    if pyWs c then
      if acc.isEmpty then pySplitWsAux rest []
      else acc.reverse :: pySplitWsAux rest []
    else pySplitWsAux rest (c :: acc)

/-- Python `str.split()` (split on whitespace runs, no empty pieces). -/
def pySplitWs (s : List Char) : List (List Char) := pySplitWsAux s []

/-- The speaker tags of the section pattern `(?:Person[12]|Speaker)`. -/
def sectionTags : List (List Char) :=
  ["Person1".toList, "Person2".toList, "Speaker".toList]

/-- Python `f"<{tag}>"`. -/
def openTagOf (t : List Char) : List Char := '<' :: (t ++ ['>'])

/-- Python `f"</{tag}>"`. -/
def closeTagOf (t : List Char) : List Char := '<' :: '/' :: (t ++ ['>'])

/-- Does one of the three opening tags start here?  Returns its name. -/
def findOpenTag (s : List Char) : Option (List Char) :=
  sectionTags.find? fun t => (openTagOf t).isPrefixOf s

/-- Lazy scan for the first closing tag `</(?:Person[12]|Speaker)>`:
returns `(content, matched close tag, rest after it)`. -/
def scanClose : List Char → Option (List Char × List Char × List Char)
  | [] => none
  | c :: rest =>
    match sectionTags.find? (fun t => (closeTagOf t).isPrefixOf (c :: rest)) with
    | some t => some ([], closeTagOf t, (c :: rest).drop (closeTagOf t).length)
    | none =>
      match scanClose rest with
      | none => none
      | some (content, ct, after) => some (c :: content, ct, after)

/-- Python `re.split(r'(<(?:Person[12]|Speaker)>.*?</(?:Person[12]|Speaker)>)', text)`:
the interleaved list of unmatched pieces and matched tagged sections.  One
unit of fuel is spent per scanned position; `fuel = text.length` always
suffices. -/
def splitSectionsGo : Nat → List Char → List Char → List (List Char)
  | 0, acc, s => [acc.reverse ++ s]
  | _ + 1, acc, [] => [acc.reverse]
  | fuel + 1, acc, c :: rest =>
    match findOpenTag (c :: rest) with
    | some t =>
      match scanClose ((c :: rest).drop (openTagOf t).length) with
      | some (content, ct, after) =>
        acc.reverse :: (openTagOf t ++ content ++ ct) :: splitSectionsGo fuel [] after
      | none => splitSectionsGo fuel (c :: acc) rest
    | none => splitSectionsGo fuel (c :: acc) rest

/-- The stripped, non-empty sections of `chunk_text` (lines 47-49). -/
def sectionsOf (text : List Char) : List (List Char) :=
  ((splitSectionsGo text.length [] text).map pyStrip).filter fun x => ¬x.isEmpty

/-- Python `re.match(r'<((?:Person[12]|Speaker))>(.*?)</(?:Person[12]|Speaker)>', section)`
followed by `.group(1)` and `.group(2).strip()` (lines 56-60).  The closing
tag need not match the opening one. -/
def parseSection (sec : List Char) : Option (List Char × List Char) :=
  match findOpenTag sec with
  | none => none
  | some t =>
    match scanClose (sec.drop (openTagOf t).length) with
    | none => none
    | some (content, _, _) => some (t, pyStrip content)

/-- Python `f"<{speaker_tag}>{content}</{speaker_tag}>"` (lines 64-68, 74). -/
def renderTag (t content : List Char) : List Char :=
  openTagOf t ++ content ++ closeTagOf t

/-- Python `len(s.encode('utf-8'))`. -/
def utf8Len (s : List Char) : Nat := (s.map Char.utf8Size).sum

/-- The section loop of `chunk_text` (lines 54-81): untagged sections are
dropped, and a section is started as a new chunk only when appending it
would push the current non-empty chunk over `max_bytes`. -/
def chunkTextLoop (maxB : Nat) : List (List Char) → List Char → List (List Char)
  | [], cur => if cur.isEmpty then [] else [cur]
  | sec :: rest, cur =>
    match parseSection sec with
    | none => chunkTextLoop maxB rest cur
    | some (t, content) =>
      if maxB < utf8Len (cur ++ renderTag t content) ∧ ¬cur.isEmpty then
        cur :: chunkTextLoop maxB rest (renderTag t content)
      else chunkTextLoop maxB rest (cur ++ renderTag t content)

/-- Embedding of `GeminiMultiTTS.chunk_text` (lines 33-83). -/
def chunk_text (text : List Char) (max_bytes : Nat) : List (List Char) :=
  chunkTextLoop max_bytes (sectionsOf text) []

/-- Sentence punctuation class `[.!?]`. -/
def isPunct (c : Char) : Bool := c = '.' ∨ c = '!' ∨ c = '?'

/-- Python `re.split(r'([.!?]+(?:\s+|$))', text)`: pieces interleaved with the
captured separators (a maximal punctuation run followed by a whitespace run,
or a maximal punctuation run at end of string). -/
def splitSentGo : Nat → List Char → List Char → List (List Char)
  | 0, acc, s => [acc.reverse ++ s]
  | _ + 1, acc, [] => [acc.reverse]
  | fuel + 1, acc, c :: rest =>
    if isPunct c then
      let prun := (c :: rest).takeWhile isPunct
      let after := (c :: rest).dropWhile isPunct
      let wrun := after.takeWhile pyWs
      if ¬wrun.isEmpty then
        acc.reverse :: (prun ++ wrun) :: splitSentGo fuel [] (after.dropWhile pyWs)
      else if after.isEmpty then
        acc.reverse :: prun :: splitSentGo fuel [] []
      else splitSentGo fuel (c :: acc) rest
    else splitSentGo fuel (c :: acc) rest

/-- The `(sentence, separator)` pairing of lines 103-106:
`sentences[i]` with `sentences[i+1] if i+1 < len(sentences) else ""`,
stride 2, after empty entries are filtered out. -/
def pairUp : List (List Char) → List (List Char × List Char)
  | [] => []
  | [s] => [(s, [])]
  | s :: sep :: rest => (s, sep) :: pairUp rest

/-- The sentence/separator pairs of `split_turn_text` for a given text. -/
def sentencePairs (text : List Char) : List (List Char × List Char) :=
  pairUp ((splitSentGo text.length [] text).filter fun x => ¬x.isEmpty)

/-- The word-boundary fallback loop of `split_turn_text` (lines 114-123):
returns the emitted chunks and the final `temp_chunk`. -/
def wordLoop (maxC : Nat) : List (List Char) → List Char → List (List Char) × List Char
  | [], temp => ([], temp)
  | w :: rest, temp =>
    if maxC < temp.length + w.length + 1 then
      let r := wordLoop maxC rest w
      (pyStrip temp :: r.1, r.2)
    else wordLoop maxC rest (if temp.isEmpty then w else temp ++ ' ' :: w)

/-- The sentence loop of `split_turn_text` (lines 102-127). -/
def stLoop (maxC : Nat) : List (List Char × List Char) → List Char → List (List Char)
  | [], cur => if cur.isEmpty then [] else [pyStrip cur]
  | (sent, sep) :: rest, cur =>
    if maxC < cur.length + (sent ++ sep).length then
      if ¬cur.isEmpty then
        pyStrip cur :: stLoop maxC rest (sent ++ sep)
      else
        (wordLoop maxC (pySplitWs (sent ++ sep)) []).1 ++
          stLoop maxC rest (wordLoop maxC (pySplitWs (sent ++ sep)) []).2
    else stLoop maxC rest (cur ++ (sent ++ sep))

/-- Embedding of `GeminiMultiTTS.split_turn_text` (lines 85-130). -/
def split_turn_text (text : List Char) (max_chars : Nat) : List (List Char) :=
  if text.length ≤ max_chars then [text]
  else stLoop max_chars (sentencePairs text) []

end Podcastfy

namespace Podcastfy

theorem pyStrip_length_le (s : List Char) : (pyStrip s).length ≤ s.length := by
  unfold pyStrip
  calc ((s.dropWhile pyWs).reverse.dropWhile pyWs).reverse.length
      = ((s.dropWhile pyWs).reverse.dropWhile pyWs).length := by
        rw [List.length_reverse]
    _ ≤ (s.dropWhile pyWs).reverse.length := (List.dropWhile_sublist _).length_le
    _ = (s.dropWhile pyWs).length := by rw [List.length_reverse]
    _ ≤ s.length := (List.dropWhile_sublist _).length_le

theorem mem_pyStrip {c : Char} {s : List Char} (h : c ∈ pyStrip s) : c ∈ s := by
  unfold pyStrip at h
  rw [List.mem_reverse] at h
  have h2 := (List.dropWhile_sublist (l := (s.dropWhile pyWs).reverse) pyWs).mem h
  rw [List.mem_reverse] at h2
  exact (List.dropWhile_sublist (l := s) pyWs).mem h2

theorem pySplitWsAux_no_ws : ∀ (s acc : List Char),
    (∀ c ∈ acc, pyWs c = false) →
    ∀ w ∈ pySplitWsAux s acc, ∀ c ∈ w, pyWs c = false
  | [], acc, hacc => by
    intro w hw c hc
    by_cases h : acc.isEmpty
    · simp [pySplitWsAux, h] at hw
    · simp only [pySplitWsAux, if_neg h, List.mem_singleton] at hw
      subst hw
      exact hacc c (List.mem_reverse.mp hc)
  | ch :: rest, acc, hacc => by
    intro w hw c hc
    by_cases h : pyWs ch
    · by_cases ha : acc.isEmpty
      · simp only [pySplitWsAux, if_pos h, if_pos ha] at hw
        exact pySplitWsAux_no_ws rest [] (by simp) w hw c hc
      · simp only [pySplitWsAux, if_pos h, if_neg ha, List.mem_cons] at hw
        rcases hw with hw | hw
        · subst hw
          exact hacc c (List.mem_reverse.mp hc)
        · exact pySplitWsAux_no_ws rest [] (by simp) w hw c hc
    · simp only [pySplitWsAux, if_neg h] at hw
      refine pySplitWsAux_no_ws rest (ch :: acc) ?_ w hw c hc
      intro d hd
      rcases List.mem_cons.mp hd with hd | hd
      · subst hd; simpa using h
      · exact hacc d hd

theorem pySplitWs_no_ws (s : List Char) :
    ∀ w ∈ pySplitWs s, ∀ c ∈ w, pyWs c = false :=
  pySplitWsAux_no_ws s [] (by simp)

theorem chunkTextLoop_budget (maxB : Nat) (S : List (List Char)) :
    ∀ (secs : List (List Char)) (cur : List Char),
    (∀ sec ∈ secs, sec ∈ S) →
    (cur = [] ∨ utf8Len cur ≤ maxB ∨
      ∃ sec ∈ S, ∃ t ct, parseSection sec = some (t, ct) ∧ cur = renderTag t ct) →
    ∀ c ∈ chunkTextLoop maxB secs cur,
      utf8Len c ≤ maxB ∨
        ∃ sec ∈ S, ∃ t ct, parseSection sec = some (t, ct) ∧ c = renderTag t ct
  | [], cur, _, hinv => by
    intro c hc
    by_cases h : cur.isEmpty
    · simp [chunkTextLoop, h] at hc
    · simp only [chunkTextLoop, if_neg h, List.mem_singleton] at hc
      subst hc
      rcases hinv with h1 | h2
      · exact absurd (by simp [h1]) h
      · exact h2
  | sec :: rest, cur, hS, hinv => by
    intro c hc
    have hS' : ∀ x ∈ rest, x ∈ S := fun x hx => hS x (by simp [hx])
    rcases hps : parseSection sec with _ | ⟨t, content⟩
    · rw [chunkTextLoop, hps] at hc
      exact chunkTextLoop_budget maxB S rest cur hS' hinv c hc
    · simp only [chunkTextLoop, hps] at hc
      by_cases hcond : maxB < utf8Len (cur ++ renderTag t content) ∧ ¬cur.isEmpty
      · rw [if_pos hcond] at hc
        rcases List.mem_cons.mp hc with h | h
        · subst h
          rcases hinv with h1 | h2 | h3
          · exact absurd (by simp [h1]) hcond.2
          · exact Or.inl h2
          · exact Or.inr h3
        · exact chunkTextLoop_budget maxB S rest (renderTag t content) hS'
            (Or.inr (Or.inr ⟨sec, hS sec (by simp), t, content, hps, rfl⟩)) c h
      · rw [if_neg hcond] at hc
        refine chunkTextLoop_budget maxB S rest (cur ++ renderTag t content) hS' ?_ c hc
        rcases Decidable.not_and_iff_or_not.mp hcond with h1 | h2
        · exact Or.inr (Or.inl (Nat.le_of_not_lt h1))
        · have : cur = [] := List.isEmpty_iff.mp (Decidable.not_not.mp h2)
          subst this
          exact Or.inr (Or.inr ⟨sec, hS sec (by simp), t, content, hps, by simp⟩)

end Podcastfy

namespace Podcastfy

theorem wordLoop_inv (maxC : Nat) : ∀ (ws : List (List Char)) (temp : List Char),
    (∀ w ∈ ws, ∀ c ∈ w, pyWs c = false) →
    (temp.length ≤ maxC ∨ ∀ c ∈ temp, pyWs c = false) →
    (∀ c ∈ (wordLoop maxC ws temp).1,
        c.length ≤ maxC ∨ ∀ ch ∈ c, pyWs ch = false) ∧
    ((wordLoop maxC ws temp).2.length ≤ maxC ∨
        ∀ ch ∈ (wordLoop maxC ws temp).2, pyWs ch = false)
  | [], temp, _, htemp => by
    refine ⟨?_, htemp⟩
    intro c hc
    simp [wordLoop] at hc
  | w :: rest, temp, hws, htemp => by
    by_cases hcond : maxC < temp.length + w.length + 1
    · have hrec := wordLoop_inv maxC rest w (fun x hx => hws x (by simp [hx]))
        (Or.inr (hws w (by simp)))
      simp only [wordLoop, if_pos hcond]
      refine ⟨?_, hrec.2⟩
      intro c hc
      rcases List.mem_cons.mp hc with h | h
      · subst h
        rcases htemp with h1 | h2
        · exact Or.inl (le_trans (pyStrip_length_le temp) h1)
        · exact Or.inr fun ch hch => h2 ch (mem_pyStrip hch)
      · exact hrec.1 c h
    · simp only [wordLoop, if_neg hcond]
      refine wordLoop_inv maxC rest _ (fun x hx => hws x (by simp [hx])) ?_
      by_cases he : temp.isEmpty
      · rw [if_pos he]
        exact Or.inr (hws w (by simp))
      · rw [if_neg he]
        refine Or.inl ?_
        simp only [List.length_append, List.length_cons]
        omega

theorem stLoop_inv (maxC : Nat) (P : List (List Char × List Char)) :
    ∀ (pairs : List (List Char × List Char)) (cur : List Char),
    (∀ p ∈ pairs, p ∈ P) →
    (cur.length ≤ maxC ∨ (∃ p ∈ P, cur = p.1 ++ p.2) ∨
      ∀ ch ∈ cur, pyWs ch = false) →
    ∀ c ∈ stLoop maxC pairs cur,
      c.length ≤ maxC ∨ (∃ p ∈ P, c = pyStrip (p.1 ++ p.2)) ∨
        ∀ ch ∈ c, pyWs ch = false
  | [], cur, _, hinv => by
    intro c hc
    by_cases h : cur.isEmpty
    · simp [stLoop, h] at hc
    · simp only [stLoop, if_neg h, List.mem_singleton] at hc
      subst hc
      rcases hinv with h1 | ⟨p, hp, hp2⟩ | h3
      · exact Or.inl (le_trans (pyStrip_length_le cur) h1)
      · exact Or.inr (Or.inl ⟨p, hp, by rw [hp2]⟩)
      · exact Or.inr (Or.inr fun ch hch => h3 ch (mem_pyStrip hch))
  | (sent, sep) :: rest, cur, hP, hinv => by
    intro c hc
    by_cases hcond : maxC < cur.length + (sent ++ sep).length
    · by_cases hne : ¬cur.isEmpty
      · simp only [stLoop, if_pos hcond, if_pos hne, List.mem_cons] at hc
        rcases hc with h | h
        · subst h
          rcases hinv with h1 | ⟨p, hp, hp2⟩ | h3
          · exact Or.inl (le_trans (pyStrip_length_le cur) h1)
          · exact Or.inr (Or.inl ⟨p, hp, by rw [hp2]⟩)
          · exact Or.inr (Or.inr fun ch hch => h3 ch (mem_pyStrip hch))
        · exact stLoop_inv maxC P rest (sent ++ sep)
            (fun x hx => hP x (by simp [hx]))
            (Or.inr (Or.inl ⟨(sent, sep), hP (sent, sep) (by simp), rfl⟩)) c h
      · simp only [stLoop, if_pos hcond, if_neg hne, List.mem_append] at hc
        have hwl := wordLoop_inv maxC (pySplitWs (sent ++ sep)) []
          (pySplitWs_no_ws (sent ++ sep)) (Or.inl (by simp))
        rcases hc with h | h
        · rcases hwl.1 c h with h1 | h2
          · exact Or.inl h1
          · exact Or.inr (Or.inr h2)
        · refine stLoop_inv maxC P rest _ (fun x hx => hP x (by simp [hx])) ?_ c h
          rcases hwl.2 with h1 | h2
          · exact Or.inl h1
          · exact Or.inr (Or.inr h2)
    · simp only [stLoop, if_neg hcond] at hc
      refine stLoop_inv maxC P rest _ (fun x hx => hP x (by simp [hx])) ?_ c hc
      refine Or.inl ?_
      rw [List.length_append]
      omega

/-- C3, counterexample text for `chunk_text`: one long tagged section made
of short words. -/
def ex3ct : List Char := ("<Person1>ab ab ab ab ab</Person1>".toList)

/-- C3, counterexample text for `split_turn_text`: a short sentence
followed by a long sentence of short words. -/
def ex3st : List Char := ("ab. cd ef gh ij kl mn.".toList)

/-- C3, counterexample: with budgets at least as large as the longest
whitespace-delimited fragment of the input (12 bytes resp. 10 characters),
`chunk_text` emits a 33-byte chunk and `split_turn_text` an 18-character
chunk — both over budget. -/
theorem chunkers_budget_cex :
    ((∀ w ∈ pySplitWs ex3ct, utf8Len w ≤ 12) ∧
      ∃ c ∈ chunk_text ex3ct 12, 12 < utf8Len c) ∧
    ((∀ w ∈ pySplitWs ex3st, w.length ≤ 10) ∧
      ∃ c ∈ split_turn_text ex3st 10, 10 < c.length) := by
  refine ⟨⟨by decide, ?_⟩, ⟨by decide, ?_⟩⟩
  · exact ⟨("<Person1>ab ab ab ab ab</Person1>".toList), by decide, by decide⟩
  · exact ⟨("cd ef gh ij kl mn.".toList), by decide, by decide⟩

/-- C3, amended: a chunk can exceed the budget only when it is a single
atomic unit of the respective splitter.  Every chunk of `chunk_text` is
within `max_bytes` or is the rendering of exactly one section of the
input's section list (one `sec ∈ sectionsOf text`, parsed to its speaker
tag and stripped content); every chunk of `split_turn_text` is within
`max_chars` or is the strip of a single complete sentence (sentence plus
separator) or is a single whitespace-free word. -/
theorem chunkers_budget_amended :
    (∀ (text : List Char) (maxB : Nat), ∀ c ∈ chunk_text text maxB,
      utf8Len c ≤ maxB ∨
        ∃ sec ∈ sectionsOf text, ∃ t ct,
          parseSection sec = some (t, ct) ∧ c = renderTag t ct) ∧
    (∀ (text : List Char) (maxC : Nat), ∀ c ∈ split_turn_text text maxC,
      c.length ≤ maxC ∨ (∃ p ∈ sentencePairs text, c = pyStrip (p.1 ++ p.2)) ∨
        ∀ ch ∈ c, pyWs ch = false) := by
  constructor
  · intro text maxB c hc
    exact chunkTextLoop_budget maxB (sectionsOf text) (sectionsOf text) []
      (fun _ hx => hx) (Or.inl rfl) c hc
  · intro text maxC c hc
    unfold split_turn_text at hc
    by_cases h : text.length ≤ maxC
    · rw [if_pos h] at hc
      rw [List.mem_singleton] at hc
      subst hc
      exact Or.inl h
    · rw [if_neg h] at hc
      exact stLoop_inv maxC (sentencePairs text) (sentencePairs text) []
        (fun _ hx => hx) (Or.inl (by simp)) c hc

/-- C3, witness: `chunkers_budget_amended` applied to the over-budget chunks
of the counterexample inputs: the 33-byte chunk is a single rendered
section, and the 18-character chunk is the strip of a single complete
sentence. -/
theorem chunkers_budget_amended_witness :
    (utf8Len ("<Person1>ab ab ab ab ab</Person1>".toList) ≤ 12 ∨
      ∃ sec ∈ sectionsOf ex3ct, ∃ t ct, parseSection sec = some (t, ct) ∧
        "<Person1>ab ab ab ab ab</Person1>".toList = renderTag t ct) ∧
    ("cd ef gh ij kl mn.".toList.length ≤ 10 ∨
      (∃ p ∈ sentencePairs ex3st,
        "cd ef gh ij kl mn.".toList = pyStrip (p.1 ++ p.2)) ∨
      ∀ ch ∈ "cd ef gh ij kl mn.".toList, pyWs ch = false) :=
  ⟨chunkers_budget_amended.1 ex3ct 12 _ (by decide),
   chunkers_budget_amended.2 ex3st 10 _ (by decide)⟩

end Podcastfy

namespace Podcastfy

/-! ## Markup cleaning: `PodcastTemplate.clean_markup`
(`podcastfy/templates/base.py`, with `supported_tags = ["Person1", "Person2"]`
as set by `ConversationTemplate`)

Each `re.sub` call is compiled to a scanner `reSub matcher`: at every
position the matcher either returns `(replacement, rest after the match)`
or fails, in which case one character is emitted and scanning continues —
exactly Python's leftmost, non-overlapping semantics.  Every matcher
consumes at least one character, and `reSub` spends one unit of fuel per
position, so `fuel = input.length` always suffices. -/

/-- One `re.sub` pass. -/
def reSub (m : List Char → Option (List Char × List Char)) :
    Nat → List Char → List Char
  | 0, s => s
  | _ + 1, [] => []
  | fuel + 1, c :: rest =>
    match m (c :: rest) with
    | some (repl, after) => repl ++ reSub m fuel after
    | none => c :: reSub m fuel rest

/-- First occurrence of `needle` in the haystack: `(before, after)`. -/
def findSub (needle : List Char) : List Char → Option (List Char × List Char)
  | [] => none
  | c :: rest =>
    if needle.isPrefixOf (c :: rest) then
      some ([], (c :: rest).drop needle.length)
    else
      match findSub needle rest with
      | none => none
      | some (pre, after) => some (c :: pre, after)

/-- The template's `supported_tags` (`ConversationTemplate`). -/
def supportedTags : List (List Char) := ["Person1".toList, "Person2".toList]

/-- The common-markup allowlist plus `supported_tags`
(`_clean_markup_tags`, line 106-107). -/
def allowedTags : List (List Char) :=
  ["speak".toList, "lang".toList, "p".toList, "phoneme".toList,
   "s".toList, "sub".toList] ++ supportedTags

/-- A run of three backquotes. -/
def bt3 : List Char := ("```".toList)

/-- Consume a leading `'\n'` if present (`\n?` with greedy `?`). -/
def dropOptNl (s : List Char) : List Char :=
  match s with
  | '\n' :: r => r
  | _ => s

/-- Matcher for
`r'```scratchpad\n.*?```\n?|```plaintext\n.*?```\n?|```\n?|\[.*?\]'`
(DOTALL), alternatives tried in order. -/
def mCodeBlock (s : List Char) : Option (List Char × List Char) :=
  if ("```scratchpad\n".toList).isPrefixOf s then
    match findSub bt3 (s.drop 14) with
    | some (_, after) => some ([], dropOptNl after)
    | none => some ([], dropOptNl (s.drop 3))
  else if ("```plaintext\n".toList).isPrefixOf s then
    match findSub bt3 (s.drop 13) with
    | some (_, after) => some ([], dropOptNl after)
    | none => some ([], dropOptNl (s.drop 3))
  else if bt3.isPrefixOf s then
    some ([], dropOptNl (s.drop 3))
  else
    match s with
    | '[' :: t =>
      (match findSub [']'] t with
       | some (_, after) => some ([], after)
       | none => none)
    | _ => none

/-- Matcher for `f"xml(?=\s*</(?:Person1|Person2)>)"` → `""`: the lookahead consumes nothing. -/
def mXml (s : List Char) : Option (List Char × List Char) :=
  if ("xml".toList).isPrefixOf s then
    if supportedTags.any
        (fun t => (closeTagOf t).isPrefixOf ((s.drop 3).dropWhile pyWs)) then
      some ([], s.drop 3)
    else none
  else none

/-- Matcher for `r'_(.*?)_'` (no DOTALL: the content may not contain a
newline), replacement `\1`. -/
def underscoreScan : List Char → Option (List Char × List Char)
  | [] => none
  | c :: rest =>
    if c = '_' then some ([], rest)
    else if c = '\n' then none
    else match underscoreScan rest with
      | none => none
      | some (p, a) => some (c :: p, a)

def mUnderscore (s : List Char) : Option (List Char × List Char) :=
  match s with
  | '_' :: t => underscoreScan t
  | _ => none

/-- Python `\w` (ASCII part). -/
def pyWordChar (c : Char) : Bool :=
  ('a' ≤ c ∧ c ≤ 'z') ∨ ('A' ≤ c ∧ c ≤ 'Z') ∨ ('0' ≤ c ∧ c ≤ '9') ∨ c = '_'

/-- The lookahead `(?:speak|lang|p|phoneme|s|sub|Person1|Person2)\b`:
some allowed tag name is a prefix and is followed by a word boundary. -/
def lookAllowed (u : List Char) : Bool :=
  allowedTags.any fun t =>
    t.isPrefixOf u &&
      match u.drop t.length with
      | [] => true
      | c :: _ => !pyWordChar c

/-- Regex fragment `(?!lookAllowed)[^>]+>` at `u`: fails when the lookahead succeeds,
otherwise consumes up to and including the first `'>'`, which must not be
the first character. -/
def tagBody (u : List Char) : Option (List Char) :=
  if lookAllowed u then none
  else match findSub ['>'] u with
    | some (pre, after) => if pre.isEmpty then none else some after
    | none => none

/-- Matcher for the tag-removal pattern
`r"</?(?!(?:" + "|".join(supported) + r")\b)[^>]+>"`.  The optional `/` is
tried greedily first and backtracked on failure, which is what makes every
*closing* tag (supported or not) match: with the `/` consumed the lookahead
may hit a supported name, but after backtracking the lookahead inspects
`/name>` and no alternative starts with `/`. -/
def mRemoveTag : List Char → Option (List Char × List Char)
  | '<' :: '/' :: u =>
    (match tagBody u with
     | some after => some ([], after)
     | none =>
       match tagBody ('/' :: u) with
       | some after => some ([], after)
       | none => none)
  | '<' :: t =>
    (match tagBody t with
     | some after => some ([], after)
     | none => none)
  | _ => none

/-- Matcher for `r"\n\s*\n"` → `"\n"`: a newline, then the following
whitespace run up to and including its last newline. -/
def mCollapseNl (s : List Char) : Option (List Char × List Char) :=
  match s with
  | '\n' :: t =>
    (let run := t.takeWhile pyWs
     match run.reverse.findIdx? (fun c => c = '\n') with
     | none => none
     | some j => some (['\n'], t.drop (run.length - j)))
  | _ => none

/-- Matcher for `r"\*"` → `""`. -/
def mAsterisk (s : List Char) : Option (List Char × List Char) :=
  match s with
  | '*' :: t => some ([], t)
  | _ => none

/-- Scan to the first position where a supported opening tag starts, or to
the end of the string: the lazy `(.*?)(?=<(?:Person1|Person2)>|$)`. -/
def scanToOpen : List Char → List Char × List Char
  | [] => ([], [])
  | c :: rest =>
    if supportedTags.any (fun t => (openTagOf t).isPrefixOf (c :: rest)) then
      ([], c :: rest)
    else
      let r := scanToOpen rest
      (c :: r.1, r.2)

/-- Matcher for `f'<{tag}>(.*?)(?=<(?:Person1|Person2)>|$)'` →
`f"<{tag}>\1</{tag}>"` (DOTALL).  The lookahead consumes nothing. -/
def mCloseFix (tag : List Char) (s : List Char) : Option (List Char × List Char) :=
  if (openTagOf tag).isPrefixOf s then
    let r := scanToOpen (s.drop (openTagOf tag).length)
    some (openTagOf tag ++ r.1 ++ closeTagOf tag, r.2)
  else none

/-- Matcher for `f'</{tag}>\s*<{tag}>'` → `' '`. -/
def mAdjacent (tag : List Char) (s : List Char) : Option (List Char × List Char) :=
  if (closeTagOf tag).isPrefixOf s then
    let u := (s.drop (closeTagOf tag).length).dropWhile pyWs
    if (openTagOf tag).isPrefixOf u then
      some ([' '], u.drop (openTagOf tag).length)
    else none
  else none

/-- Matcher for `r'\s+'` → `' '`. -/
def mCollapseWs (s : List Char) : Option (List Char × List Char) :=
  match s with
  | c :: _ => if pyWs c then some ([' '], s.dropWhile pyWs) else none
  | [] => none

/-- Matcher for `f'</{tag}>(<[^>]+>)'` → `f'</{tag}> \1'`. -/
def mSpace1 (tag : List Char) (s : List Char) : Option (List Char × List Char) :=
  if (closeTagOf tag).isPrefixOf s then
    match s.drop (closeTagOf tag).length with
    | '<' :: w =>
      (match findSub ['>'] w with
       | some (pre, after) =>
         if pre.isEmpty then none
         else some (closeTagOf tag ++ ' ' :: '<' :: (pre ++ ['>']), after)
       | none => none)
    | _ => none
  else none

/-- Matcher for `f'([^>\s])(<{tag}>)'` → `'\1 \2'`. -/
def mSpace2 (tag : List Char) (s : List Char) : Option (List Char × List Char) :=
  match s with
  | c :: t =>
    if ¬(c = '>') ∧ ¬pyWs c ∧ (openTagOf tag).isPrefixOf t then
      some (c :: ' ' :: openTagOf tag, t.drop (openTagOf tag).length)
    else none
  | [] => none

/-- The tag name `"Person1"`. -/
def tagP1 : List Char := ("Person1".toList)

/-- The tag name `"Person2"`. -/
def tagP2 : List Char := ("Person2".toList)

/-- Embedding of `PodcastTemplate._clean_scratchpad` (base.py lines 63-93). -/
def clean_scratchpad (s : List Char) : List Char :=
  let s1 := reSub mCodeBlock s.length s
  let s2 := reSub mXml s1.length s1
  let s3 := reSub mUnderscore s2.length s2
  pyStrip s3

/-- Embedding of `PodcastTemplate._clean_markup_tags` (base.py lines 95-133). -/
def clean_markup_tags (s : List Char) : List Char :=
  let s1 := reSub mRemoveTag s.length s
  let s2 := reSub mCollapseNl s1.length s1
  let s3 := reSub mAsterisk s2.length s2
  let s4 := reSub (mCloseFix tagP1) s3.length s3
  let s5 := reSub (mCloseFix tagP2) s4.length s4
  pyStrip s5

/-- Embedding of `PodcastTemplate._fix_malformed_tags` (base.py lines 135-166). -/
def fix_malformed_tags (s : List Char) : List Char :=
  let s1 := reSub (mAdjacent tagP1) s.length s
  let s2 := reSub (mAdjacent tagP2) s1.length s1
  let s3 := reSub mCollapseWs s2.length s2
  let s4 := reSub (mSpace1 tagP1) s3.length s3
  let s5 := reSub (mSpace2 tagP1) s4.length s4
  let s6 := reSub (mSpace1 tagP2) s5.length s5
  let s7 := reSub (mSpace2 tagP2) s6.length s6
  pyStrip s7

/-- Embedding of `PodcastTemplate.clean_markup` (base.py lines 43-61). -/
def clean_markup (s : List Char) : List Char :=
  fix_malformed_tags (clean_markup_tags (clean_scratchpad s))

end Podcastfy

namespace Podcastfy

/-- Does the text contain a complete simple tag `<name>` or `</name>`
(`name` a non-empty word-character run) whose name is outside the
allowlist? -/
def hasBadTag : List Char → Bool
  | [] => false
  | '<' :: t =>
    let u := match t with | '/' :: v => v | _ => t
    let name := u.takeWhile pyWordChar
    if ¬name.isEmpty ∧ (u.drop name.length).head? = some '>' ∧
        ¬(name ∈ allowedTags) then
      true
    else hasBadTag t
  | _ :: t => hasBadTag t

/-- C2, counterexample input. -/
def ex2 : List Char := ("<Person1>hello<Person2>hi".toList)

/-- C2, counterexample: `clean_markup` is not idempotent.  Cleaning
`"<Person1>hello<Person2>hi"` once yields
`"<Person1>hello</Person1> <Person2>hi</Person2>"`; cleaning that again
removes the closing tags (the `</?` pattern backtracks over the optional
`/` and swallows every closing tag), re-closes the opened tags, and traps
the inserted space inside: `"<Person1>hello </Person1> <Person2>hi</Person2>"`.
-/
theorem clean_markup_not_idempotent :
    clean_markup ex2 =
      "<Person1>hello</Person1> <Person2>hi</Person2>".toList ∧
    clean_markup (clean_markup ex2) =
      "<Person1>hello </Person1> <Person2>hi</Person2>".toList ∧
    clean_markup (clean_markup ex2) ≠ clean_markup ex2 := by
  refine ⟨by decide, by decide, by decide⟩

/-- C8: on input `"<p*x>"` the cleaner outputs `"<px>"` — a complete tag
whose name `px` is outside the allowlist — because the removal pass keeps
`<p*x>` (the lookahead sees `p` followed by the non-word `*`) and the later
asterisk-removal pass then mints `<px>`; similarly `"<s<x>y>"` becomes
`"<sy>"`.  This contradicts `clean_markup`'s own contract of returning
"cleaned text with only supported tags". -/
theorem clean_markup_leaks_unsupported_tag :
    clean_markup ("<p*x>".toList) = "<px>".toList ∧
    hasBadTag (clean_markup ("<p*x>".toList)) = true ∧
    clean_markup ("<s<x>y>".toList) = "<sy>".toList ∧
    hasBadTag (clean_markup ("<s<x>y>".toList)) = true := by
  refine ⟨by decide, by decide, by decide, by decide⟩

end Podcastfy

namespace Podcastfy

/-- The backquote character (spelled via its code point). -/
def bq : Char := Char.ofNat 96

/-- Predicate `avoids bad s`: no character of `bad` occurs in `s`. -/
def avoids (bad : List Char) (s : List Char) : Prop := ∀ c ∈ s, c ∉ bad

theorem avoids_tail {bad : List Char} {c : Char} {s : List Char}
    (h : avoids bad (c :: s)) : avoids bad s :=
  fun d hd => h d (List.mem_cons_of_mem c hd)

theorem mem_of_isPrefixOf {l₁ l₂ : List Char} {c : Char}
    (h : l₁.isPrefixOf l₂ = true) (hc : c ∈ l₁) : c ∈ l₂ :=
  ( List.isPrefixOf_iff_prefix.mp h).subset hc

theorem reSub_nil (m : List Char → Option (List Char × List Char)) (fuel : Nat) :
    reSub m fuel [] = [] := by
  cases fuel <;> rfl

/-- A pass is the identity on any input satisfying a tail-closed predicate
on which its matcher never fires. -/
theorem reSub_id {m : List Char → Option (List Char × List Char)}
    {P : List Char → Prop} (htail : ∀ c s, P (c :: s) → P s)
    (hm : ∀ s, P s → m s = none) :
    ∀ (fuel : Nat) (s : List Char), P s → reSub m fuel s = s
  | 0, _, _ => rfl
  | _ + 1, [], _ => rfl
  | fuel + 1, c :: rest, hP => by
    have hrec := reSub_id htail hm fuel rest (htail c rest hP)
    simp [reSub, hm _ hP, hrec]

/-- Characters of a pass's output are characters of its input or of the
replacements, provided every match's replacement lies in `R` and its
continuation is made of input characters. -/
theorem mem_reSub {m : List Char → Option (List Char × List Char)} {R : List Char}
    (hm : ∀ s r a, m s = some (r, a) → (∀ c ∈ r, c ∈ R) ∧ ∀ c ∈ a, c ∈ s) :
    ∀ (fuel : Nat) (s : List Char) (c : Char),
      c ∈ reSub m fuel s → c ∈ s ∨ c ∈ R
  | 0, _, _, hc => Or.inl hc
  | _ + 1, [], _, hc => by simp [reSub] at hc
  | fuel + 1, cc :: rest, c, hc => by
    rcases hms : m (cc :: rest) with _ | ⟨r, a⟩
    · rw [reSub, hms] at hc
      rcases List.mem_cons.mp hc with h | h
      · exact Or.inl (h ▸ List.mem_cons_self cc rest)
      · rcases mem_reSub hm fuel rest c h with h1 | h1
        · exact Or.inl (List.mem_cons_of_mem cc h1)
        · exact Or.inr h1
    · rw [reSub, hms] at hc
      rcases List.mem_append.mp hc with h | h
      · exact Or.inr ((hm _ r a hms).1 c h)
      · rcases mem_reSub hm fuel a c h with h1 | h1
        · exact Or.inl ((hm _ r a hms).2 c h1)
        · exact Or.inr h1

theorem mCodeBlock_none {s : List Char} (h : avoids [bq, '['] s) :
    mCodeBlock s = none := by
  have h1 : ¬("```scratchpad\n".toList.isPrefixOf s = true) := fun hp =>
    h bq (mem_of_isPrefixOf hp (by decide)) (by simp)
  have h2 : ¬("```plaintext\n".toList.isPrefixOf s = true) := fun hp =>
    h bq (mem_of_isPrefixOf hp (by decide)) (by simp)
  have h3 : ¬(bt3.isPrefixOf s = true) := fun hp =>
    h bq (mem_of_isPrefixOf hp (by decide)) (by simp)
  unfold mCodeBlock
  rw [if_neg h1, if_neg h2, if_neg h3]
  split
  · rename_i t
    exact absurd (List.mem_cons_self '[' t) (fun hm => h '[' hm (by simp))
  · rfl

theorem mXml_none {s : List Char} (h : avoids ['<'] s) : mXml s = none := by
  unfold mXml
  by_cases hp : "xml".toList.isPrefixOf s = true
  · rw [if_pos hp]
    have : ¬(supportedTags.any
        (fun t => (closeTagOf t).isPrefixOf ((s.drop 3).dropWhile pyWs)) = true) := by
      intro hany
      rcases List.any_eq_true.mp hany with ⟨t, _, hpre⟩
      have hmem : '<' ∈ (s.drop 3).dropWhile pyWs :=
        mem_of_isPrefixOf hpre (by simp [closeTagOf])
      have hmem2 : '<' ∈ s.drop 3 := (List.dropWhile_sublist _).mem hmem
      exact h '<' (List.drop_subset 3 s hmem2) (by simp)
    rw [if_neg this]
  · rw [if_neg hp]

theorem mUnderscore_none {s : List Char} (h : avoids ['_'] s) :
    mUnderscore s = none := by
  unfold mUnderscore
  split
  · rename_i t
    exact absurd (List.mem_cons_self '_' t) (fun hm => h '_' hm (by simp))
  · rfl

theorem mRemoveTag_none {s : List Char} (h : avoids ['<'] s) :
    mRemoveTag s = none := by
  unfold mRemoveTag
  split
  · rename_i u
    exact absurd (List.mem_cons_self '<' ('/' :: u)) (fun hm => h '<' hm (by simp))
  · rename_i t _
    exact absurd (List.mem_cons_self '<' t) (fun hm => h '<' hm (by simp))
  · rfl

theorem mAsterisk_none {s : List Char} (h : avoids ['*'] s) :
    mAsterisk s = none := by
  unfold mAsterisk
  split
  · rename_i t
    exact absurd (List.mem_cons_self '*' t) (fun hm => h '*' hm (by simp))
  · rfl

theorem mCloseFix_none (tag : List Char) {s : List Char} (h : avoids ['<'] s) :
    mCloseFix tag s = none := by
  unfold mCloseFix
  rw [if_neg]
  intro hp
  exact h '<' (mem_of_isPrefixOf hp (by simp [openTagOf])) (by simp)

theorem mAdjacent_none (tag : List Char) {s : List Char} (h : avoids ['<'] s) :
    mAdjacent tag s = none := by
  unfold mAdjacent
  rw [if_neg]
  intro hp
  exact h '<' (mem_of_isPrefixOf hp (by simp [closeTagOf])) (by simp)

theorem mSpace1_none (tag : List Char) {s : List Char} (h : avoids ['<'] s) :
    mSpace1 tag s = none := by
  unfold mSpace1
  rw [if_neg]
  intro hp
  exact h '<' (mem_of_isPrefixOf hp (by simp [closeTagOf])) (by simp)

theorem mSpace2_none (tag : List Char) {s : List Char} (h : avoids ['<'] s) :
    mSpace2 tag s = none := by
  unfold mSpace2
  split
  · rename_i c t
    rw [if_neg]
    intro ⟨_, _, hp⟩
    exact h '<' (List.mem_cons_of_mem c (mem_of_isPrefixOf hp (by simp [openTagOf])))
      (by simp)
  · rfl

theorem mCollapseNl_none {s : List Char} (h : avoids ['\n'] s) :
    mCollapseNl s = none := by
  unfold mCollapseNl
  split
  · rename_i t
    exact absurd (List.mem_cons_self '\n' t) (fun hm => h '\n' hm (by simp))
  · rfl

end Podcastfy

namespace Podcastfy

/-- Adjacent characters are never both whitespace. -/
def wsR (a b : Char) : Prop := ¬(pyWs a = true ∧ pyWs b = true)

/-- Fully whitespace-normalized text: every whitespace character is a plain
space and no two adjacent characters are both whitespace. -/
def wsProp (l : List Char) : Prop :=
  (∀ c ∈ l, pyWs c = true → c = ' ') ∧ l.Chain' wsR

theorem wsProp_nil : wsProp [] := ⟨by simp, List.chain'_nil⟩

theorem wsProp_tail {c : Char} {l : List Char} (h : wsProp (c :: l)) : wsProp l :=
  ⟨fun d hd => h.1 d (List.mem_cons_of_mem c hd), (List.chain'_cons'.mp h.2).2⟩

/-- Property `wsProp` only depends on membership and adjacency, so it descends to
contiguous substrings. -/
theorem wsProp_mono {l₁ l₂ : List Char} (h : l₁ <:+: l₂) (hw : wsProp l₂) :
    wsProp l₁ := by
  refine ⟨fun c hc hws => hw.1 c (h.subset hc) hws, ?_⟩
  obtain ⟨pre, suf, heq⟩ := h
  have hc2 := hw.2
  rw [← heq, List.append_assoc, List.chain'_append] at hc2
  exact (List.chain'_append.mp hc2.2.1).1

theorem pyStrip_eq_rdropWhile (s : List Char) :
    pyStrip s = List.rdropWhile pyWs (s.dropWhile pyWs) := rfl

theorem pyStrip_within (s : List Char) : pyStrip s <:+: s := by
  rw [pyStrip_eq_rdropWhile]
  exact ( List.rdropWhile_prefix _ _).isInfix.trans
    (List.dropWhile_suffix _).isInfix

theorem dropWhile_eq_self_of_front {p : Char → Bool} {l m : List Char}
    (hp : l <+: m) (h : m.dropWhile p = m) : l.dropWhile p = l := by
  obtain ⟨r, rfl⟩ := hp
  cases l with
  | nil => rfl
  | cons c l' =>
    have hnc : ¬p c = true := by
      intro hpc
      have hlen := congrArg List.length h
      rw [List.cons_append, List.dropWhile_cons_of_pos hpc] at hlen
      have := (List.dropWhile_sublist (l := l' ++ r) p).length_le
      simp only [List.length_cons] at hlen
      omega
    rw [List.dropWhile_cons_of_neg hnc]

theorem pyStrip_idem (s : List Char) : pyStrip (pyStrip s) = pyStrip s := by
  have h1 : (List.rdropWhile pyWs (s.dropWhile pyWs)).dropWhile pyWs =
      List.rdropWhile pyWs (s.dropWhile pyWs) :=
    dropWhile_eq_self_of_front ( List.rdropWhile_prefix pyWs _)
      (List.dropWhile_idempotent pyWs s)
  rw [pyStrip_eq_rdropWhile (pyStrip s), pyStrip_eq_rdropWhile s, h1,
    List.rdropWhile_idempotent]

/-- The collapse-whitespace pass produces whitespace-normalized output. -/
theorem collapseWs_wsProp : ∀ (fuel : Nat) (s : List Char), s.length ≤ fuel →
    wsProp (reSub mCollapseWs fuel s)
  | 0, s, h => by
    have : s = [] := List.eq_nil_of_length_eq_zero (Nat.le_zero.mp h)
    subst this
    exact wsProp_nil
  | _ + 1, [], _ => by
    rw [reSub_nil]
    exact wsProp_nil
  | fuel + 1, c :: rest, h => by
    simp only [List.length_cons] at h
    by_cases hc : pyWs c = true
    · have hm : mCollapseWs (c :: rest) = some ([' '], rest.dropWhile pyWs) := by
        simp [mCollapseWs, hc]
      have hlen : (rest.dropWhile pyWs).length ≤ fuel :=
        le_trans (List.dropWhile_sublist _).length_le (by omega)
      have IH := collapseWs_wsProp fuel (rest.dropWhile pyWs) hlen
      have hstep : reSub mCollapseWs (fuel + 1) (c :: rest) =
          ' ' :: reSub mCollapseWs fuel (rest.dropWhile pyWs) := by
        simp [reSub, hm]
      rw [hstep]
      have hhead : ∀ b, (reSub mCollapseWs fuel (rest.dropWhile pyWs)).head? = some b →
          pyWs b = false := by
        intro b hb
        rcases ha : rest.dropWhile pyWs with _ | ⟨a, r⟩
        · rw [ha, reSub_nil] at hb
          simp at hb
        · have hne : rest.dropWhile pyWs ≠ [] := by rw [ha]; simp
          have hna : pyWs a = false := by
            have h0 := List.head_dropWhile_not pyWs rest hne
            simp only [ha, List.head_cons] at h0
            exact h0
          rcases fuel with _ | f
          · rw [ha] at hlen
            simp at hlen
          · have hmn : mCollapseWs (a :: r) = none := by
              simp [mCollapseWs, hna]
            rw [ha, reSub, hmn] at hb
            simp at hb
            rw [← hb]
            exact hna
      constructor
      · intro d hd hws
        rcases List.mem_cons.mp (by simpa using hd) with h1 | h1
        · exact h1
        · exact IH.1 d h1 hws
      · refine List.chain'_cons'.mpr ⟨?_, IH.2⟩
        intro b hb
        intro ⟨_, hwb⟩
        rw [hhead b hb] at hwb
        exact absurd hwb (by simp)
    · have hm : mCollapseWs (c :: rest) = none := by
        simp [mCollapseWs, hc]
      have IH := collapseWs_wsProp fuel rest (by omega)
      have hstep : reSub mCollapseWs (fuel + 1) (c :: rest) =
          c :: reSub mCollapseWs fuel rest := by
        simp [reSub, hm]
      rw [hstep]
      constructor
      · intro d hd hws
        rcases List.mem_cons.mp hd with h1 | h1
        · rw [h1] at hws
          exact absurd hws (by simp [hc])
        · exact IH.1 d h1 hws
      · refine List.chain'_cons'.mpr ⟨?_, IH.2⟩
        intro b _
        intro ⟨hwc, _⟩
        exact absurd hwc (by simp [hc])

/-- The collapse-whitespace pass is the identity on whitespace-normalized
text. -/
theorem collapseWs_id : ∀ (fuel : Nat) (s : List Char), wsProp s →
    s.length ≤ fuel → reSub mCollapseWs fuel s = s
  | 0, _, _, _ => rfl
  | _ + 1, [], _, _ => rfl
  | fuel + 1, c :: rest, hw, h => by
    simp only [List.length_cons] at h
    have IH := collapseWs_id fuel rest (wsProp_tail hw) (by omega)
    by_cases hc : pyWs c = true
    · have hsp : c = ' ' := hw.1 c (by simp) hc
      have hdw : rest.dropWhile pyWs = rest := by
        rcases rest with _ | ⟨b, r⟩
        · rfl
        · have hR := (List.chain'_cons'.mp hw.2).1 b (by simp)
          have hnb : ¬pyWs b = true := fun hwb => hR ⟨hc, hwb⟩
          simp [List.dropWhile_cons, hnb]
      have hm : mCollapseWs (c :: rest) = some ([' '], rest.dropWhile pyWs) := by
        simp [mCollapseWs, hc]
      have hstep : reSub mCollapseWs (fuel + 1) (c :: rest) =
          ' ' :: reSub mCollapseWs fuel (rest.dropWhile pyWs) := by
        simp [reSub, hm]
      rw [hstep, hdw, IH, hsp]
    · have hm : mCollapseWs (c :: rest) = none := by
        simp [mCollapseWs, hc]
      have hstep : reSub mCollapseWs (fuel + 1) (c :: rest) =
          c :: reSub mCollapseWs fuel rest := by
        simp [reSub, hm]
      rw [hstep, IH]

end Podcastfy

namespace Podcastfy

/-- The characters that can trigger a non-whitespace cleaning rule. -/
def specialChars : List Char := ['<', '*', '_', bq, '[']

/-- Plain text: none of the markup-trigger characters occurs. -/
def plainText (s : List Char) : Prop := avoids specialChars s

theorem avoids_subset {bad bad' : List Char} {s : List Char} (h : avoids bad' s)
    (hsub : ∀ c ∈ bad, c ∈ bad') : avoids bad s :=
  fun c hc hb => h c hc (hsub c hb)

theorem mCollapseNl_mem : ∀ (s r a : List Char), mCollapseNl s = some (r, a) →
    (∀ c ∈ r, c ∈ ['\n']) ∧ ∀ c ∈ a, c ∈ s := by
  intro s r a hm
  unfold mCollapseNl at hm
  split at hm
  · rename_i t
    rcases hidx : List.findIdx? (fun c => decide (c = '\n'))
        (List.takeWhile pyWs t).reverse with _ | j
    · simp only [hidx] at hm
      exact absurd hm (by simp)
    · simp only [hidx, Option.some.injEq, Prod.mk.injEq] at hm
      obtain ⟨hr, ha⟩ := hm
      subst hr; subst ha
      exact ⟨by simp, fun c hc =>
        List.mem_cons_of_mem '\n' (List.drop_subset _ t hc)⟩
  · exact absurd hm (by simp)

theorem mCollapseWs_mem : ∀ (s r a : List Char), mCollapseWs s = some (r, a) →
    (∀ c ∈ r, c ∈ [' ']) ∧ ∀ c ∈ a, c ∈ s := by
  intro s r a hm
  unfold mCollapseWs at hm
  split at hm
  · split at hm
    · simp only [Option.some.injEq, Prod.mk.injEq] at hm
      obtain ⟨hr, ha⟩ := hm
      subst hr; subst ha
      exact ⟨by simp, fun c hc => (List.dropWhile_sublist _).mem hc⟩
    · exact absurd hm (by simp)
  · exact absurd hm (by simp)

theorem avoids_reSub {m : List Char → Option (List Char × List Char)}
    {R bad : List Char}
    (hm : ∀ s r a, m s = some (r, a) → (∀ c ∈ r, c ∈ R) ∧ ∀ c ∈ a, c ∈ s)
    (hR : ∀ c ∈ R, c ∉ bad) :
    ∀ {fuel : Nat} {s : List Char}, avoids bad s → avoids bad (reSub m fuel s) :=
  fun {fuel s} h c hc => (mem_reSub hm fuel s c hc).elim (h c) (hR c)

theorem avoids_pyStrip {bad s : List Char} (h : avoids bad s) :
    avoids bad (pyStrip s) :=
  fun c hc => h c (mem_pyStrip hc)

theorem clean_scratchpad_plain {s : List Char} (h : plainText s) :
    clean_scratchpad s = pyStrip s := by
  have h1 : reSub mCodeBlock s.length s = s :=
    reSub_id (fun _ _ => avoids_tail) (fun _ ht => mCodeBlock_none ht) s.length s
      (avoids_subset h (by decide))
  have h2 : reSub mXml s.length s = s :=
    reSub_id (fun _ _ => avoids_tail) (fun _ ht => mXml_none ht) s.length s
      (avoids_subset h (by decide))
  have h3 : reSub mUnderscore s.length s = s :=
    reSub_id (fun _ _ => avoids_tail) (fun _ ht => mUnderscore_none ht) s.length s
      (avoids_subset h (by decide))
  simp only [clean_scratchpad, h1, h2, h3]

theorem clean_markup_tags_plain {s : List Char} (h : plainText s) :
    clean_markup_tags s = pyStrip (reSub mCollapseNl s.length s) := by
  have h1 : reSub mRemoveTag s.length s = s :=
    reSub_id (fun _ _ => avoids_tail) (fun _ ht => mRemoveTag_none ht) s.length s
      (avoids_subset h (by decide))
  have hN : avoids ['*', '<'] (reSub mCollapseNl s.length s) :=
    avoids_reSub mCollapseNl_mem (by decide) (avoids_subset h (by decide))
  have h2 : reSub mAsterisk (reSub mCollapseNl s.length s).length
      (reSub mCollapseNl s.length s) = reSub mCollapseNl s.length s :=
    reSub_id (fun _ _ => avoids_tail) (fun _ ht => mAsterisk_none ht) _ _
      (avoids_subset hN (by decide))
  have h3 : ∀ tg fuel, reSub (mCloseFix tg) fuel (reSub mCollapseNl s.length s) =
      reSub mCollapseNl s.length s := fun tg fuel =>
    reSub_id (fun _ _ => avoids_tail) (fun _ ht => mCloseFix_none tg ht) fuel _
      (avoids_subset hN (by decide))
  simp only [clean_markup_tags, h1, h2, h3]

theorem fix_malformed_tags_plain {s : List Char} (h : avoids ['<'] s) :
    fix_malformed_tags s = pyStrip (reSub mCollapseWs s.length s) := by
  have h1 : ∀ tg fuel, reSub (mAdjacent tg) fuel s = s := fun tg fuel =>
    reSub_id (fun _ _ => avoids_tail) (fun _ ht => mAdjacent_none tg ht) fuel s h
  have hW : avoids ['<'] (reSub mCollapseWs s.length s) :=
    avoids_reSub mCollapseWs_mem (by decide) h
  have h2 : ∀ tg fuel, reSub (mSpace1 tg) fuel (reSub mCollapseWs s.length s) =
      reSub mCollapseWs s.length s := fun tg fuel =>
    reSub_id (fun _ _ => avoids_tail) (fun _ ht => mSpace1_none tg ht) fuel _ hW
  have h3 : ∀ tg fuel, reSub (mSpace2 tg) fuel (reSub mCollapseWs s.length s) =
      reSub mCollapseWs s.length s := fun tg fuel =>
    reSub_id (fun _ _ => avoids_tail) (fun _ ht => mSpace2_none tg ht) fuel _ hW
  simp only [fix_malformed_tags, h1, h2, h3]

/-- On plain text, `clean_markup` reduces to strip / newline-collapse /
strip / whitespace-collapse / strip. -/
theorem clean_markup_plain_eq {s : List Char} (h : plainText s) :
    clean_markup s =
      pyStrip (reSub mCollapseWs
        (pyStrip (reSub mCollapseNl (pyStrip s).length (pyStrip s))).length
        (pyStrip (reSub mCollapseNl (pyStrip s).length (pyStrip s)))) := by
  have hB : plainText (pyStrip s) := avoids_pyStrip h
  have hA : avoids ['<']
      (pyStrip (reSub mCollapseNl (pyStrip s).length (pyStrip s))) :=
    avoids_pyStrip (avoids_reSub mCollapseNl_mem (by decide)
      (avoids_subset hB (by decide)))
  rw [clean_markup, clean_scratchpad_plain h, clean_markup_tags_plain hB,
    fix_malformed_tags_plain hA]

/-- C2, amended: `clean_markup` is idempotent on plain inputs — inputs
containing none of the markup-trigger characters `<`, `*`, `_`, backquote,
`[` — but not on arbitrary inputs (see the counterexample). -/
theorem clean_markup_idem_plain (s : List Char) (h : plainText s) :
    clean_markup (clean_markup s) = clean_markup s := by
  have heq := clean_markup_plain_eq h
  set B := pyStrip s with hB
  set N := reSub mCollapseNl B.length B with hN
  set A := pyStrip N with hA
  set W := reSub mCollapseWs A.length A with hW
  have hwsW : wsProp W := collapseWs_wsProp A.length A le_rfl
  have ht : clean_markup s = pyStrip W := heq
  have hplainW : plainText W :=
    avoids_reSub mCollapseWs_mem (by decide)
      (avoids_pyStrip (avoids_reSub mCollapseNl_mem (by decide)
        (avoids_pyStrip h)))
  have hplaint : plainText (pyStrip W) := avoids_pyStrip hplainW
  have hstript : pyStrip (pyStrip W) = pyStrip W := pyStrip_idem W
  have hwst : wsProp (pyStrip W) := wsProp_mono (pyStrip_within W) hwsW
  have hnonl : avoids ['\n'] (pyStrip W) := by
    intro c hc hmem
    have hcnl : c = '\n' := by simpa using hmem
    have := hwsW.1 c (mem_pyStrip hc) (by rw [hcnl]; decide)
    rw [hcnl] at this
    exact absurd this (by decide)
  have hnl : reSub mCollapseNl (pyStrip W).length (pyStrip W) = pyStrip W :=
    reSub_id (fun _ _ => avoids_tail) (fun _ ht' => mCollapseNl_none ht') _ _ hnonl
  have hws : reSub mCollapseWs (pyStrip W).length (pyStrip W) = pyStrip W :=
    collapseWs_id _ _ hwst le_rfl
  rw [ht, clean_markup_plain_eq hplaint, hstript, hnl, hstript, hws, hstript]

/-- C2, witness: `clean_markup_idem_plain` at the plain input
`"hi   there"` (cleaning collapses the spaces once; cleaning again changes
nothing). -/
theorem clean_markup_idem_plain_witness :
    clean_markup (clean_markup ("hi   there".toList)) =
      clean_markup ("hi   there".toList) :=
  clean_markup_idem_plain ("hi   there".toList) (by unfold plainText avoids; decide)

end Podcastfy
